import Mathlib

set_option linter.all false

/-!
Shallow embedding of the `columnar` repository (src/region.rs, src/lib.rs,
src/borrow.rs).

Rust `Vec<T>` values are modelled as Lean `List` values together with an
explicit capacity wherever the code consults that capacity (only the active
`local` vector of a `Region` does).  `usize` is modelled as `Nat`: the code
performs no wrapping arithmetic on element values, and the single place where
a `usize` subtraction can underflow (the `end - l` computation in
`Region::slice`) is modelled by an explicit check that returns `none`,
matching the Rust panic.  All fallible operations (Rust index panics) return
`Option`.  `u64` and `u8` element values are modelled as `Nat`; the code
never computes with them, it only moves them around.
-/

/-- Model of Rust `usize::next_power_of_two`, by doubling an accumulator
until it reaches `n`; the fuel argument makes the recursion structural and
`nextPow2` supplies enough fuel for every input. -/
def nextPow2Go : Nat → Nat → Nat → Nat
  | 0, _, p => p
  | f + 1, n, p => if n ≤ p then p else nextPow2Go f n (2 * p)

/-- Least power of two greater than or equal to `n` (`1` for `n = 0`),
the behaviour of `usize::next_power_of_two` (src/region.rs line 92). -/
def nextPow2 (n : Nat) : Nat :=
  nextPow2Go n n 1

/-- Model of `Region<T>` (src/region.rs lines 12-19).  `loc` is the Rust
field `local` (`local` is a Lean keyword); `localCap` models the capacity of
the `local` vector, which `reserve` consults.  Stashed segments are kept as
their contents only: the code never reads a stashed vector's capacity except
in `heap_size`, which is not modelled. -/
structure Region (α : Type) where
  loc : List α
  localCap : Nat
  stash : List (List α)
  limit : Nat
deriving DecidableEq

variable {α : Type}

/-- Model of `Region::with_limit` (src/region.rs lines 23-29): both vectors
default to empty with capacity `0`. -/
def Region.withLimit (limit : Nat) : Region α :=
  { loc := [], localCap := 0, stash := [], limit := limit }

/-- Model of `Region::reserve` (src/region.rs lines 85-103).  The Rust
condition `count > capacity - len` is `usize` subtraction with `len ≤
capacity`; `Nat` truncated subtraction agrees.  `Vec::with_capacity n` is
modelled as an empty list of capacity exactly `n`. -/
def Region.reserve (r : Region α) (count : Nat) : Region α :=
  if r.localCap - r.loc.length < count then
    let nextLen := min (nextPow2 (r.localCap + 1)) r.limit
    let nextLen := max count nextLen
    if r.loc.isEmpty then
      { r with localCap := nextLen }
    else
      { r with loc := [], localCap := nextLen, stash := r.stash ++ [r.loc] }
  else
    r

/-- Model of `Region::with_limit_and_capacity` (src/region.rs lines 32-36). -/
def Region.withLimitAndCapacity (limit count : Nat) : Region α :=
  (Region.withLimit limit).reserve count

/-- Model of `Region::copy` (src/region.rs lines 71-74): reserve space for
one element, then push it onto the active segment. -/
def Region.copy (r : Region α) (t : α) : Region α :=
  let r := r.reserve 1
  { r with loc := r.loc ++ [t] }

/-- Model of `Region::copy_slice` (src/region.rs lines 78-81). -/
def Region.copySlice (r : Region α) (items : List α) : Region α :=
  let r := r.reserve items.length
  { r with loc := r.loc ++ items }

/-- Model of `Region::clear` (src/region.rs lines 66-69): `Vec::clear` keeps
the allocation, so `localCap` is unchanged. -/
def Region.clear (r : Region α) : Region α :=
  { r with loc := [], stash := [] }

/-- Model of `Region::len` (src/region.rs lines 106-108). -/
def Region.len (r : Region α) : Nat :=
  r.loc.length + (r.stash.map List.length).sum

/-- Recursive rendering of the scan loop in `Region::idx` (src/region.rs
lines 38-47): instead of accumulating `l` we subtract each skipped segment's
length from `i`; the Rust indexing panic is `none`. -/
def Region.idxGo : List (List α) → List α → Nat → Option α
  | [], loc, i => loc[i]?
  | seg :: rest, loc, i =>
    if i < seg.length then seg[i]? else Region.idxGo rest loc (i - seg.length)

/-- Model of `Region::idx` (src/region.rs lines 38-47). -/
def Region.idx (r : Region α) (i : Nat) : Option α :=
  Region.idxGo r.stash r.loc i

/-- Rust range slicing `&l[s..e]`: panics (`none`) when `s > e` or
`e > l.length`, otherwise the elements in `[s, e)`. -/
def sliceExtract (l : List α) (s e : Nat) : Option (List α) :=
  if s ≤ e ∧ e ≤ l.length then some ((l.drop s).take (e - s)) else none

/-- Recursive rendering of the scan loop in `Region::slice` (src/region.rs
lines 49-62).  When a segment is skipped, both bounds shrink by its length;
the Rust code computes `end - l` only at the owning segment, and that
subtraction underflows (panics) exactly when `end` is below the cumulative
length there, which the `e < seg.length` check reproduces. -/
def Region.sliceGo : List (List α) → List α → Nat → Nat → Option (List α)
  | [], loc, s, e => sliceExtract loc s e
  | seg :: rest, loc, s, e =>
    if s < seg.length then sliceExtract seg s e
    else if e < seg.length then none
    else Region.sliceGo rest loc (s - seg.length) (e - seg.length)

/-- Model of `Region::slice` (src/region.rs lines 49-62). -/
def Region.slice (r : Region α) (s e : Nat) : Option (List α) :=
  Region.sliceGo r.stash r.loc s e

/-- The logical element sequence of a region: the concatenation of the
stashed segments followed by the active segment (spec section 3). -/
def Region.contents (r : Region α) : List α :=
  r.stash.flatten ++ r.loc

/-- Copy a list of values one by one into a region. -/
def regionBuildFrom (r : Region α) (vs : List α) : Region α :=
  vs.foldl Region.copy r

/-- A region built from scratch: `with_limit_and_capacity` then `copy` each
value in order. -/
def regionBuild (limit cap : Nat) (vs : List α) : Region α :=
  regionBuildFrom (Region.withLimitAndCapacity limit cap) vs

theorem Region.len_eq_contents (r : Region α) : r.len = r.contents.length := by
  simp [Region.len, Region.contents, Nat.add_comm]

theorem Region.contents_reserve (r : Region α) (n : Nat) :
    (r.reserve n).contents = r.contents := by
  unfold Region.reserve
  split
  · split
    · next h =>
      simp [Region.contents]
    · next h =>
      simp [Region.contents]
  · rfl

theorem Region.contents_copySlice (r : Region α) (ts : List α) :
    (r.copySlice ts).contents = r.contents ++ ts := by
  unfold Region.copySlice
  have h := Region.contents_reserve r ts.length
  simp only [Region.contents] at *
  simp [← List.append_assoc, h]

theorem Region.copy_eq_copySlice (r : Region α) (t : α) :
    r.copy t = r.copySlice [t] := rfl

theorem Region.contents_copy (r : Region α) (t : α) :
    (r.copy t).contents = r.contents ++ [t] := by
  rw [Region.copy_eq_copySlice, Region.contents_copySlice]

theorem Region.idxGo_eq (segs : List (List α)) (loc : List α) (i : Nat) :
    Region.idxGo segs loc i = (segs.flatten ++ loc)[i]? := by
  induction segs generalizing i with
  | nil => simp [Region.idxGo]
  | cons seg rest ih =>
    simp only [Region.idxGo, List.flatten_cons, List.append_assoc]
    split
    · next h =>
      simp [List.getElem?_append, h]
    · next h =>
      simp [List.getElem?_append, h, ih]

theorem Region.idx_eq_contents (r : Region α) (i : Nat) :
    r.idx i = r.contents[i]? := by
  rw [Region.idx, Region.idxGo_eq, Region.contents]

theorem regionBuildFrom_contents (r : Region α) (vs : List α) :
    (regionBuildFrom r vs).contents = r.contents ++ vs := by
  induction vs generalizing r with
  | nil => simp [regionBuildFrom]
  | cons v vs ih =>
    have h := ih (r.copy v)
    simp only [regionBuildFrom, List.foldl_cons] at h ⊢
    rw [h, Region.contents_copy, List.append_assoc]
    rfl

theorem regionBuild_contents (limit cap : Nat) (vs : List α) :
    (regionBuild limit cap vs).contents = vs := by
  rw [regionBuild, regionBuildFrom_contents, Region.withLimitAndCapacity,
    Region.contents_reserve]
  simp [Region.withLimit, Region.contents]

/-- C1: copying any finite ordered sequence of u64 values in order into a
`Region<u64>` with any limit ≥ 1 and any initial capacity yields
`len() = n`, and `idx i` returns the i-th value for every `i < n`. -/
theorem c1_region_u64_roundtrip (limit cap : Nat) (hlimit : 1 ≤ limit)
    (vs : List Nat) (hvs : ∀ v ∈ vs, v < 2 ^ 64) :
    (regionBuild limit cap vs).len = vs.length ∧
    ∀ i (hi : i < vs.length), (regionBuild limit cap vs).idx i = some vs[i] := by
  constructor
  · rw [Region.len_eq_contents, regionBuild_contents]
  · intro i hi
    rw [Region.idx_eq_contents, regionBuild_contents]
    exact List.getElem?_eq_getElem hi

/-- C1 witness: limit 8, zero initial capacity, values `0..100` (the spec's
concrete scenario, forcing several growth and stash events). -/
theorem c1_witness :
    1 ≤ 8 ∧ (∀ v ∈ List.range 100, v < 2 ^ 64) ∧
    (regionBuild 8 0 (List.range 100)).len = 100 ∧
    (regionBuild 8 0 (List.range 100)).idx 99 = some 99 := by
  have h := c1_region_u64_roundtrip 8 0 (by decide) (List.range 100)
    (by intro v hv; exact lt_of_lt_of_le (List.mem_range.mp hv) (by norm_num))
  refine ⟨by decide, ?_, ?_, ?_⟩
  · intro v hv; exact lt_of_lt_of_le (List.mem_range.mp hv) (by norm_num)
  · simpa using h.1
  · have h2 := h.2 99 (by simp)
    simpa using h2

/-- The four mutating operations of `Region` (src/region.rs): `copy`,
`copy_slice`, `reserve`, `clear`.  Used to quantify over build histories. -/
inductive RegionOp (α : Type) where
  | copy (t : α)
  | copySlice (ts : List α)
  | reserve (n : Nat)
  | clear
deriving DecidableEq

def RegionOp.apply (r : Region α) : RegionOp α → Region α
  | .copy t => r.copy t
  | .copySlice ts => r.copySlice ts
  | .reserve n => r.reserve n
  | .clear => r.clear

def applyOps (ops : List (RegionOp α)) (r : Region α) : Region α :=
  ops.foldl RegionOp.apply r

def RegionOp.isClear : RegionOp α → Bool
  | .clear => true
  | _ => false

/-- The number of elements an operation asks `reserve` for. -/
def RegionOp.count : RegionOp α → Nat
  | .copy _ => 1
  | .copySlice ts => ts.length
  | .reserve n => n
  | .clear => 0

theorem applyOps_contents_noClear (ops : List (RegionOp α)) (r : Region α)
    (h : ∀ op ∈ ops, op.isClear = false) :
    ∃ tail, (applyOps ops r).contents = r.contents ++ tail := by
  induction ops generalizing r with
  | nil => exact ⟨[], by simp [applyOps]⟩
  | cons op ops ih =>
    have hop : op.isClear = false := h op (List.mem_cons_self _ _)
    have hops : ∀ o ∈ ops, o.isClear = false := fun o ho =>
      h o (List.mem_cons_of_mem _ ho)
    obtain ⟨tail, htail⟩ := ih (RegionOp.apply r op) hops
    refine ⟨?_, ?_⟩
    case _ =>
      exact (match op with
        | RegionOp.copy t => [t] ++ tail
        | RegionOp.copySlice ts => ts ++ tail
        | RegionOp.reserve _ => tail
        | RegionOp.clear => tail)
    simp only [applyOps, List.foldl_cons] at htail ⊢
    cases op with
    | copy t =>
      rw [htail]
      show _ = r.contents ++ ([t] ++ tail)
      rw [RegionOp.apply, Region.contents_copy, List.append_assoc]
    | copySlice ts =>
      rw [htail]
      show _ = r.contents ++ (ts ++ tail)
      rw [RegionOp.apply, Region.contents_copySlice, List.append_assoc]
    | reserve n =>
      rw [htail]
      show _ = r.contents ++ tail
      rw [RegionOp.apply, Region.contents_reserve]
    | clear => simp [RegionOp.isClear] at hop

/-- C2: an index written before further `copy`/`copy_slice` (or `reserve`)
calls reads back the same value afterwards, as long as no `clear`
intervenes: later appends never alter the content at earlier indices. -/
theorem c2_idx_frame (r : Region α) (ops : List (RegionOp α))
    (hops : ∀ op ∈ ops, op.isClear = false) (i : Nat) (hi : i < r.len) :
    (applyOps ops r).idx i = r.idx i := by
  obtain ⟨tail, htail⟩ := applyOps_contents_noClear ops r hops
  rw [Region.len_eq_contents] at hi
  rw [Region.idx_eq_contents, Region.idx_eq_contents, htail,
    List.getElem?_append]
  simp [hi]

/-- C2 witness: a concrete region holding three values; a later `copy` and
`copy_slice` leave `idx 1` unchanged. -/
theorem c2_witness :
    (∀ op ∈ ([RegionOp.copy 9, RegionOp.copySlice [1, 2, 3]] :
        List (RegionOp Nat)), op.isClear = false) ∧
    1 < (regionBuild 8 0 [5, 6, 7]).len ∧
    (applyOps [RegionOp.copy 9, RegionOp.copySlice [1, 2, 3]]
        (regionBuild 8 0 [5, 6, 7])).idx 1 =
      (regionBuild 8 0 [5, 6, 7]).idx 1 :=
  ⟨by decide, by decide,
    c2_idx_frame (regionBuild 8 0 [5, 6, 7])
      [RegionOp.copy 9, RegionOp.copySlice [1, 2, 3]] (by decide) 1 (by decide)⟩

theorem Region.reserve_stash_inv (r : Region α) (n : Nat)
    (h : ∀ s ∈ r.stash, s ≠ []) : ∀ s ∈ (r.reserve n).stash, s ≠ [] := by
  unfold Region.reserve
  split
  · split
    · simpa using h
    · next hne =>
      intro s hs
      simp only [List.mem_append, List.mem_singleton] at hs
      rcases hs with hs | hs
      · exact h s hs
      · subst hs
        simpa [List.isEmpty_iff] using hne
  · exact h

theorem RegionOp.apply_stash_inv (r : Region α) (op : RegionOp α)
    (h : ∀ s ∈ r.stash, s ≠ []) : ∀ s ∈ (RegionOp.apply r op).stash, s ≠ [] := by
  cases op with
  | copy t => exact Region.reserve_stash_inv r 1 h
  | copySlice ts => exact Region.reserve_stash_inv r ts.length h
  | reserve n => exact Region.reserve_stash_inv r n h
  | clear => simp [RegionOp.apply, Region.clear]

theorem applyOps_stash_inv (ops : List (RegionOp α)) (r : Region α)
    (h : ∀ s ∈ r.stash, s ≠ []) : ∀ s ∈ (applyOps ops r).stash, s ≠ [] := by
  induction ops generalizing r with
  | nil => exact h
  | cons op ops ih =>
    exact ih (RegionOp.apply r op) (RegionOp.apply_stash_inv r op h)

/-- C10: after any sequence of region operations from a fresh region, the
stash contains no empty segment (an empty active segment is discarded rather
than stashed on growth), and the linear scans of `idx` and `len` agree with
the logical index space (the concatenation of all segments). -/
theorem c10_stash_no_empty_segments (α : Type) (limit cap : Nat)
    (ops : List (RegionOp α)) :
    (∀ s ∈ (applyOps ops (Region.withLimitAndCapacity limit cap)).stash,
      1 ≤ s.length) ∧
    (∀ i, (applyOps ops (Region.withLimitAndCapacity limit cap)).idx i =
      (applyOps ops (Region.withLimitAndCapacity limit cap)).contents[i]?) ∧
    (applyOps ops (Region.withLimitAndCapacity limit cap)).len =
      (applyOps ops (Region.withLimitAndCapacity limit cap)).contents.length := by
  refine ⟨?_, fun i => Region.idx_eq_contents _ i, Region.len_eq_contents _⟩
  intro s hs
  have hinit : ∀ s ∈ (Region.withLimitAndCapacity (α := α) limit cap).stash, s ≠ [] := by
    have h0 : ∀ s ∈ (Region.withLimit (α := α) limit).stash, s ≠ [] := by
      simp [Region.withLimit]
    exact Region.reserve_stash_inv _ cap h0
  have := applyOps_stash_inv ops _ hinit s hs
  exact Nat.one_le_iff_ne_zero.mpr (fun hlen => this (List.eq_nil_of_length_eq_zero hlen))

/-- C10 witness: limit 8, capacity 0, three copies; the single stashed
segment is nonempty, and `idx 2` agrees with the logical contents. -/
theorem c10_witness :
    1 ≤ ((applyOps [RegionOp.copy 1, RegionOp.copy 2, RegionOp.copy 3]
        (Region.withLimitAndCapacity 8 0)).stash.getD 0 ([] : List Nat)).length ∧
    (applyOps [RegionOp.copy 1, RegionOp.copy 2, RegionOp.copy 3]
        (Region.withLimitAndCapacity 8 0)).idx 2 =
      (applyOps [RegionOp.copy 1, RegionOp.copy 2, RegionOp.copy 3]
        (Region.withLimitAndCapacity (α := Nat) 8 0)).contents[2]? :=
  ⟨(c10_stash_no_empty_segments Nat 8 0
      [RegionOp.copy 1, RegionOp.copy 2, RegionOp.copy 3]).1 _ (by decide),
    (c10_stash_no_empty_segments Nat 8 0
      [RegionOp.copy 1, RegionOp.copy 2, RegionOp.copy 3]).2.1 2⟩

theorem nextPow2Go_ge (f : Nat) : ∀ (n p : Nat), n ≤ 2 ^ f * p → n ≤ nextPow2Go f n p := by
  induction f with
  | zero => intro n p h; simpa [nextPow2Go] using h
  | succ f ih =>
    intro n p h
    rw [nextPow2Go]
    split
    · assumption
    · apply ih
      rw [pow_succ, Nat.mul_assoc] at h
      exact h

theorem nextPow2_ge (n : Nat) : n ≤ nextPow2 n := by
  apply nextPow2Go_ge
  simpa using (Nat.lt_two_pow n).le

/-- C3 counterexample: a fresh region with limit 8 must grow to accept its
first element (the trigger condition holds), yet the stash stays empty; the
claim as stated would force the old active segment to be pushed. -/
theorem c3_counterexample :
    ((Region.withLimit 8 : Region Nat).localCap -
        (Region.withLimit 8 : Region Nat).loc.length < 1) ∧
    ((Region.withLimit 8 : Region Nat).reserve 1).stash ≠
      (Region.withLimit 8 : Region Nat).stash ++
        [(Region.withLimit 8 : Region Nat).loc] := by
  decide

/-- C3 (amended): whenever an append of `count` items would exceed the
active segment's remaining capacity, the new active segment is allocated
with capacity exactly `max(count, min(limit, next_power_of_two(old_cap +
1)))` and starts empty; the old active segment is pushed onto the stash if
it is nonempty, and discarded if it is empty. -/
theorem c3_amended_growth_rule (r : Region α) (count : Nat)
    (htrigger : r.localCap - r.loc.length < count) :
    (r.reserve count).localCap =
      max count (min r.limit (nextPow2 (r.localCap + 1))) ∧
    (r.reserve count).loc = [] ∧
    (r.reserve count).stash =
      (if r.loc.isEmpty then r.stash else r.stash ++ [r.loc]) ∧
    (r.reserve count).limit = r.limit := by
  unfold Region.reserve
  rw [if_pos htrigger]
  split
  · next h =>
    refine ⟨by simp [Nat.min_comm], ?_, by simp [h], rfl⟩
    simpa [List.isEmpty_iff] using h
  · next h =>
    exact ⟨by simp [Nat.min_comm], rfl, by simp [h], rfl⟩

/-- C3 amended witness: a region whose nonempty active segment (one element,
capacity 1) receives a 5-element append: the segment is stashed and the new
capacity is `max 5 (min 8 2) = 5`. -/
theorem c3_amended_witness :
    ((⟨[1], 1, [], 8⟩ : Region Nat).localCap -
        (⟨[1], 1, [], 8⟩ : Region Nat).loc.length < 5) ∧
    ((⟨[1], 1, [], 8⟩ : Region Nat).reserve 5).localCap =
      max 5 (min 8 (nextPow2 2)) ∧
    ((⟨[1], 1, [], 8⟩ : Region Nat).reserve 5).loc = [] ∧
    ((⟨[1], 1, [], 8⟩ : Region Nat).reserve 5).stash =
      (if ([1] : List Nat).isEmpty then ([] : List (List Nat)) else [] ++ [[1]]) ∧
    ((⟨[1], 1, [], 8⟩ : Region Nat).reserve 5).limit = 8 :=
  ⟨by decide, c3_amended_growth_rule ⟨[1], 1, [], 8⟩ 5 (by decide)⟩

/-- C8 counterexample: after eight copies with limit 8 the active capacity
has saturated at the limit, yet one `copy_slice` of 20 items allocates a
segment of capacity 20, not 8. -/
theorem c8_counterexample :
    (regionBuild 8 0 [0, 1, 2, 3, 4, 5, 6, 7] : Region Nat).localCap =
      (regionBuild 8 0 [0, 1, 2, 3, 4, 5, 6, 7] : Region Nat).limit ∧
    ((regionBuild 8 0 [0, 1, 2, 3, 4, 5, 6, 7] : Region Nat).copySlice
        (List.range 20)).localCap ≠ 8 := by
  decide

theorem Region.reserve_saturated (r : Region α) (n : Nat)
    (hcap : r.localCap = r.limit) (hwf : r.loc.length ≤ r.localCap)
    (hn : n ≤ r.limit) :
    (r.reserve n).localCap = r.limit ∧
    (r.reserve n).loc.length + n ≤ (r.reserve n).localCap ∧
    (r.reserve n).limit = r.limit ∧
    (r.reserve n).loc.length ≤ (r.reserve n).localCap := by
  have hmin : min (nextPow2 (r.localCap + 1)) r.limit = r.limit := by
    apply Nat.min_eq_right
    calc r.limit ≤ r.localCap + 1 := by omega
      _ ≤ nextPow2 (r.localCap + 1) := nextPow2_ge _
  have hmax : max n (min (nextPow2 (r.localCap + 1)) r.limit) = r.limit := by
    rw [hmin]; exact Nat.max_eq_right hn
  by_cases htrig : r.localCap - r.loc.length < n
  · by_cases hloc : r.loc.isEmpty
    · have hl : r.loc = [] := by simpa [List.isEmpty_iff] using hloc
      have h0 : r.loc.length = 0 := by simp [hl]
      have htrig2 : r.localCap < n := by omega
      simp [Region.reserve, htrig2, hloc, hmax, hl, hn]
    · simp [Region.reserve, htrig, hloc, hmax, hn]
  · have hle : n ≤ r.localCap - r.loc.length := Nat.le_of_not_lt htrig
    simp only [Region.reserve, if_neg htrig]
    exact ⟨hcap, by omega, by trivial, hwf⟩

theorem RegionOp.apply_saturated (r : Region α) (op : RegionOp α)
    (hcap : r.localCap = r.limit) (hwf : r.loc.length ≤ r.localCap)
    (hop : op.count ≤ r.limit) :
    (RegionOp.apply r op).localCap = r.limit ∧
    (RegionOp.apply r op).loc.length ≤ (RegionOp.apply r op).localCap ∧
    (RegionOp.apply r op).limit = r.limit := by
  cases op with
  | copy t =>
    have h := Region.reserve_saturated r 1 hcap hwf hop
    simp only [RegionOp.apply, Region.copy]
    refine ⟨h.1, ?_, h.2.2.1⟩
    have := h.2.1
    simp only [List.length_append, List.length_cons, List.length_nil]
    omega
  | copySlice ts =>
    have h := Region.reserve_saturated r ts.length hcap hwf hop
    simp only [RegionOp.apply, Region.copySlice]
    refine ⟨h.1, ?_, h.2.2.1⟩
    have := h.2.1
    simp only [List.length_append]
    omega
  | reserve n =>
    have h := Region.reserve_saturated r n hcap hwf hop
    exact ⟨h.1, h.2.2.2, h.2.2.1⟩
  | clear =>
    simp [RegionOp.apply, Region.clear, hcap]

/-- C8 (amended): once the active capacity has saturated at the limit,
every subsequent operation that requests at most `limit` elements keeps the
active capacity (and hence the capacity of every segment it allocates)
exactly `limit`; but an append requesting `count > limit` elements
allocates a segment of capacity exactly `count`, not `limit`. -/
theorem c8_amended_saturation (r : Region α) (ops : List (RegionOp α))
    (hcap : r.localCap = r.limit) (hwf : r.loc.length ≤ r.localCap)
    (hops : ∀ op ∈ ops, op.count ≤ r.limit) :
    (applyOps ops r).localCap = r.limit ∧
    (∀ count, r.limit < count → r.localCap - r.loc.length < count →
      (r.reserve count).localCap = count) := by
  constructor
  · induction ops generalizing r with
    | nil => exact hcap
    | cons op ops ih =>
      have hop : op.count ≤ r.limit := hops op (List.mem_cons_self _ _)
      have h := RegionOp.apply_saturated r op hcap hwf hop
      have hlim := h.2.2
      have := ih (RegionOp.apply r op) (hlim ▸ h.1) h.2.1
        (fun o ho => hlim ▸ hops o (List.mem_cons_of_mem _ ho))
      simpa [applyOps, hlim] using this
  · intro count hcount htrig
    unfold Region.reserve
    rw [if_pos htrig]
    have hmax : max count (min (nextPow2 (r.localCap + 1)) r.limit) = count := by
      apply Nat.max_eq_left
      calc min (nextPow2 (r.localCap + 1)) r.limit ≤ r.limit := Nat.min_le_right _ _
        _ ≤ count := hcount.le
    split
    · simp [hmax]
    · simp [hmax]

/-- C8 amended witness: a saturated region (limit 8, capacity 8) stays at
capacity 8 under appends of at most 8 elements, while a 20-element request
would allocate capacity 20. -/
theorem c8_amended_witness :
    (regionBuild 8 0 [0, 1, 2, 3, 4, 5, 6, 7] : Region Nat).localCap =
      (regionBuild 8 0 [0, 1, 2, 3, 4, 5, 6, 7]).limit ∧
    (regionBuild 8 0 [0, 1, 2, 3, 4, 5, 6, 7] : Region Nat).loc.length ≤
      (regionBuild 8 0 [0, 1, 2, 3, 4, 5, 6, 7]).localCap ∧
    (∀ op ∈ ([RegionOp.copySlice (List.range 8), RegionOp.copy 3] :
        List (RegionOp Nat)),
      op.count ≤ (regionBuild 8 0 [0, 1, 2, 3, 4, 5, 6, 7]).limit) ∧
    (applyOps [RegionOp.copySlice (List.range 8), RegionOp.copy 3]
        (regionBuild 8 0 [0, 1, 2, 3, 4, 5, 6, 7])).localCap =
      (regionBuild 8 0 [0, 1, 2, 3, 4, 5, 6, 7] : Region Nat).limit :=
  ⟨by decide, by decide, by decide,
    (c8_amended_saturation (regionBuild 8 0 [0, 1, 2, 3, 4, 5, 6, 7])
      [RegionOp.copySlice (List.range 8), RegionOp.copy 3]
      (by decide) (by decide) (by decide)).1⟩

/-- Total length of a list of segments. -/
def segSum (segs : List (List α)) : Nat :=
  (segs.map List.length).sum

/-- The half-open range `[s, e)` of logical indices lies entirely within the
single segment numbered `j` of `segs` (spec sections 4.1 and 9: a slice
range must not straddle a segment boundary). -/
def inOneSeg (segs : List (List α)) (s e : Nat) : Prop :=
  ∃ j, j < segs.length ∧ segSum (segs.take j) ≤ s ∧ s ≤ e ∧
    e ≤ segSum (segs.take j) + (segs.getD j []).length

/-- The segments of a region in logical order: stashed ones, then the
active one. -/
def Region.segsOf (r : Region α) : List (List α) :=
  r.stash ++ [r.loc]

theorem segSum_cons (l : List α) (ls : List (List α)) :
    segSum (l :: ls) = l.length + segSum ls := by
  simp [segSum]

theorem segSum_append (a b : List (List α)) :
    segSum (a ++ b) = segSum a + segSum b := by
  simp [segSum]

theorem segSum_eq_flatten_length (segs : List (List α)) :
    segs.flatten.length = segSum segs := by
  simp [segSum]

theorem getD_append_left (xs ys : List (List α)) (j : Nat) (hj : j < xs.length) :
    (xs ++ ys).getD j [] = xs.getD j [] := by
  simp [List.getD_eq_getElem?_getD, List.getElem?_append, hj]

theorem getD_append_last (xs : List (List α)) (l : List α) :
    (xs ++ [l]).getD xs.length [] = l := by
  simp [List.getD_eq_getElem?_getD, List.getElem?_append_right (Nat.le_refl xs.length)]

theorem inOneSeg_snoc (xs : List (List α)) (l : List α) (s e : Nat)
    (h : inOneSeg xs s e) : inOneSeg (xs ++ [l]) s e := by
  obtain ⟨j, hj, h1, h2, h3⟩ := h
  refine ⟨j, by simp; omega, ?_, h2, ?_⟩
  · rwa [List.take_append_of_le_length hj.le]
  · rwa [List.take_append_of_le_length hj.le, getD_append_left _ _ _ hj]

theorem inOneSeg_extend_last (xs : List (List α)) (l ts : List α) (s e : Nat)
    (h : inOneSeg (xs ++ [l]) s e) : inOneSeg (xs ++ [l ++ ts]) s e := by
  obtain ⟨j, hj, h1, h2, h3⟩ := h
  simp only [List.length_append, List.length_singleton] at hj
  by_cases hjx : j < xs.length
  · refine ⟨j, by simp; omega, ?_, h2, ?_⟩
    · rwa [List.take_append_of_le_length hjx.le] at h1 ⊢
    · rw [List.take_append_of_le_length hjx.le, getD_append_left _ _ _ hjx]
      rw [List.take_append_of_le_length hjx.le, getD_append_left _ _ _ hjx] at h3
      exact h3
  · have hje : j = xs.length := by omega
    subst hje
    refine ⟨xs.length, by simp, ?_, h2, ?_⟩
    · rwa [List.take_left] at h1 ⊢
    · rw [List.take_left, getD_append_last]
      rw [List.take_left, getD_append_last] at h3
      simp only [List.length_append]
      omega

theorem extract_append_left (l₁ l₂ : List α) (s e : Nat) (hs : s ≤ e)
    (he : e ≤ l₁.length) :
    ((l₁ ++ l₂).drop s).take (e - s) = (l₁.drop s).take (e - s) := by
  rw [List.drop_append_eq_append_drop, List.take_append_eq_append_take]
  have h1 : s - l₁.length = 0 := by omega
  have h2 : e - s - (l₁.drop s).length = 0 := by
    rw [List.length_drop]
    omega
  rw [h1, h2]
  simp

theorem extract_append_right (l₁ l₂ : List α) (s e : Nat) (h : l₁.length ≤ s) :
    ((l₁ ++ l₂).drop s).take (e - s) = (l₂.drop (s - l₁.length)).take (e - s) := by
  rw [List.drop_append_eq_append_drop]
  have h1 : l₁.drop s = [] := List.drop_eq_nil_of_le h
  simp [h1]

theorem Region.sliceGo_inOneSeg (segs : List (List α)) (loc : List α) :
    ∀ s e, inOneSeg (segs ++ [loc]) s e →
      Region.sliceGo segs loc s e =
        some (((segs.flatten ++ loc).drop s).take (e - s)) := by
  induction segs with
  | nil =>
    intro s e h
    obtain ⟨j, hj, h1, h2, h3⟩ := h
    have hj0 : j = 0 := by simpa using hj
    subst hj0
    simp only [List.take_zero, List.nil_append] at h1 h3
    have h3e : e ≤ loc.length := by
      simpa [segSum, List.getD_eq_getElem?_getD] using h3
    simp [Region.sliceGo, sliceExtract, h2, h3e]
  | cons seg rest ih =>
    intro s e h
    obtain ⟨j, hj, h1, h2, h3⟩ := h
    rw [List.cons_append] at hj h1 h3
    cases j with
    | zero =>
      simp only [List.take_zero, segSum, List.map_nil, List.sum_nil,
        Nat.zero_add, List.getD_eq_getElem?_getD, List.getElem?_cons_zero,
        Option.getD_some] at h1 h3
      by_cases hs : s < seg.length
      · rw [Region.sliceGo, if_pos hs]
        rw [List.flatten_cons, List.append_assoc,
          extract_append_left seg _ s e h2 h3]
        simp [sliceExtract, h2, h3]
      · have hse : s = seg.length ∧ e = seg.length := by omega
        rw [Region.sliceGo, if_neg hs, if_neg (by omega)]
        have hrec := ih (s - seg.length) (e - seg.length)
          ⟨0, by simp, by simp [segSum], by omega, by simp [segSum]; omega⟩
        rw [hrec]
        have h0 : e - seg.length - (s - seg.length) = 0 := by omega
        have h0g : e - s = 0 := by omega
        simp [h0, h0g]
    | succ j' =>
      rw [List.take_succ_cons, segSum_cons] at h1 h3
      have hsg : seg.length ≤ s := by omega
      have heg : seg.length ≤ e := by omega
      rw [Region.sliceGo, if_neg (by omega), if_neg (by omega)]
      have hwit : inOneSeg (rest ++ [loc]) (s - seg.length) (e - seg.length) := by
        refine ⟨j', by simpa using hj, by omega, by omega, ?_⟩
        have hgd : ((seg :: (rest ++ [loc])).getD (j' + 1) []) =
            (rest ++ [loc]).getD j' [] := by
          simp [List.getD_eq_getElem?_getD]
        rw [hgd] at h3
        omega
      rw [ih _ _ hwit]
      rw [List.flatten_cons, List.append_assoc,
        extract_append_right seg _ s e hsg]
      have harith : e - seg.length - (s - seg.length) = e - s := by omega
      rw [harith]

theorem Region.slice_inOneSeg (r : Region α) (s e : Nat)
    (h : inOneSeg r.segsOf s e) :
    r.slice s e = some ((r.contents.drop s).take (e - s)) :=
  Region.sliceGo_inOneSeg r.stash r.loc s e h

theorem Region.segsOf_reserve (r : Region α) (n : Nat) (s e : Nat)
    (h : inOneSeg r.segsOf s e) : inOneSeg (r.reserve n).segsOf s e := by
  unfold Region.reserve
  split
  · split
    · simpa [Region.segsOf] using h
    · have h2 := inOneSeg_snoc r.segsOf [] s e h
      simpa [Region.segsOf, List.append_assoc] using h2
  · exact h

theorem Region.inOneSeg_copySlice (r : Region α) (ts : List α) (s e : Nat)
    (h : inOneSeg r.segsOf s e) : inOneSeg (r.copySlice ts).segsOf s e := by
  have h1 := Region.segsOf_reserve r ts.length s e h
  exact inOneSeg_extend_last (r.reserve ts.length).stash _ ts s e h1

theorem Region.len_stash_loc (r : Region α) :
    r.len = segSum r.stash + r.loc.length := by
  rw [Region.len_eq_contents, Region.contents, List.length_append,
    segSum_eq_flatten_length]

theorem Region.inOneSeg_copySlice_new (r : Region α) (ts : List α) :
    inOneSeg (r.copySlice ts).segsOf r.len (r.len + ts.length) := by
  have hseg : (r.copySlice ts).segsOf =
      (r.reserve ts.length).stash ++ [(r.reserve ts.length).loc ++ ts] := rfl
  have hlen : r.len = segSum (r.reserve ts.length).stash +
      (r.reserve ts.length).loc.length := by
    have h1 : (r.reserve ts.length).len = r.len := by
      rw [Region.len_eq_contents, Region.len_eq_contents,
        Region.contents_reserve]
    rw [← h1, Region.len_stash_loc]
  rw [hseg]
  refine ⟨(r.reserve ts.length).stash.length, by simp, ?_, by omega, ?_⟩
  · rw [List.take_left]
    omega
  · rw [List.take_left, getD_append_last]
    simp only [List.length_append]
    omega

/-- Cumulative length of the first `i` stored items (the offset before
item `i`). -/
def prefLen (ss : List (List α)) (i : Nat) : Nat :=
  segSum (ss.take i)

/-- The offsets vector that results from storing `ss` in order: entry `k`
is the cumulative length after item `k` (spec sections 3 and 4.4/4.5). -/
def offsetsOf (ss : List (List α)) : List Nat :=
  (List.range ss.length).map (fun k => prefLen ss (k + 1))

theorem prefLen_zero (ss : List (List α)) : prefLen ss 0 = 0 := rfl

theorem prefLen_succ (ss : List (List α)) (i : Nat) (h : i < ss.length) :
    prefLen ss (i + 1) = prefLen ss i + (ss.getD i []).length := by
  unfold prefLen
  rw [List.take_succ, segSum_append]
  congr 1
  rw [List.getElem?_eq_getElem h]
  simp [segSum, List.getD_eq_getElem?_getD, List.getElem?_eq_getElem h]

theorem prefLen_append_of_le (ss : List (List α)) (t : List α) (i : Nat)
    (h : i ≤ ss.length) : prefLen (ss ++ [t]) i = prefLen ss i := by
  simp [prefLen, List.take_append_of_le_length h]

theorem prefLen_length (ss : List (List α)) :
    prefLen ss ss.length = segSum ss := by
  simp [prefLen]

theorem prefLen_length_snoc (ss : List (List α)) (t : List α) :
    prefLen (ss ++ [t]) (ss.length + 1) = segSum ss + t.length := by
  have h : (ss ++ [t]).take (ss.length + 1) = ss ++ [t] :=
    List.take_of_length_le (by simp)
  simp [prefLen, h, segSum]

theorem offsetsOf_nil : offsetsOf ([] : List (List α)) = [] := rfl

theorem offsetsOf_snoc (ss : List (List α)) (t : List α) :
    offsetsOf (ss ++ [t]) = offsetsOf ss ++ [segSum ss + t.length] := by
  simp only [offsetsOf, List.length_append, List.length_singleton,
    List.range_succ, List.map_append, List.map_cons, List.map_nil]
  congr 1
  · apply List.map_congr_left
    intro k hk
    have hk2 : k < ss.length := List.mem_range.mp hk
    exact prefLen_append_of_le ss t (k + 1) (by omega)
  · simp [prefLen_length_snoc]

theorem offsetsOf_length (ss : List (List α)) :
    (offsetsOf ss).length = ss.length := by
  simp [offsetsOf]

theorem offsetsOf_getElem (ss : List (List α)) (k : Nat) (hk : k < ss.length) :
    (offsetsOf ss)[k]? = some (prefLen ss (k + 1)) := by
  simp [offsetsOf, List.getElem?_range hk]

/-- Model of `StringBuf` (src/lib.rs lines 49-52).  The Rust field `idx` is
renamed `offsets` so that the `idx` method keeps its source name; strings
are modelled as their byte sequences (`List Nat`, one value per `u8`). -/
structure StringBuf where
  offsets : List Nat
  data : Region Nat
deriving DecidableEq

/-- Model of `StringBuf::copy` (src/lib.rs lines 61-64): append the bytes
via `copy_slice`, then push the new cumulative byte length. -/
def StringBuf.copy (b : StringBuf) (c : List Nat) : StringBuf :=
  let data := b.data.copySlice c
  { offsets := b.offsets ++ [data.len], data := data }

/-- The `(start, end)` pair that `StringBuf::idx` (src/lib.rs lines 67-68)
computes from the offsets; a panicking Rust index read becomes `none`. -/
def StringBuf.bounds (b : StringBuf) (i : Nat) : Option (Nat × Nat) :=
  match b.offsets[i]? with
  | none => none
  | some e =>
    match i with
    | 0 => some (0, e)
    | j + 1 =>
      match b.offsets[j]? with
      | none => none
      | some s => some (s, e)

/-- Model of `StringBuf::idx` (src/lib.rs lines 66-70); the unchecked UTF-8
reinterpretation is the identity on the byte sequence. -/
def StringBuf.idx (b : StringBuf) (i : Nat) : Option (List Nat) :=
  match b.bounds i with
  | none => none
  | some (s, e) => b.data.slice s e

/-- Model of `StringBuf::len` (src/lib.rs lines 72-74). -/
def StringBuf.len (b : StringBuf) : Nat :=
  b.offsets.length

/-- Model of `StringBuf::with_capacity` (src/lib.rs lines 76-80). -/
def StringBuf.withCapacity (s : Nat) : StringBuf :=
  { offsets := [], data := Region.withLimitAndCapacity (1000000 * 16) s }

/-- Modelled from the spec: `clear()` for the text buffer.  Neither the
`ColumnarBuf` trait nor `StringBuf` in src/lib.rs has a `clear` method; only
`Region::clear` exists.  Spec sections 4.5 and 8 state that `clear()`
returns a buffer to an empty build phase, which for this representation
empties the offsets vector and clears the byte arena. -/
def StringBuf.clear (b : StringBuf) : StringBuf :=
  { offsets := [], data := b.data.clear }

/-- Copy a list of strings in order into an existing text buffer. -/
def sbuildFrom (b : StringBuf) (ss : List (List Nat)) : StringBuf :=
  ss.foldl StringBuf.copy b

/-- A text buffer built from scratch with capacity hint `cap`. -/
def sbuild (cap : Nat) (ss : List (List Nat)) : StringBuf :=
  sbuildFrom (StringBuf.withCapacity cap) ss

/-- Representation invariant of a text buffer that holds the strings `ss`:
the offsets are the cumulative byte lengths, the arena holds the
concatenated bytes, and each string's byte range lies within one segment. -/
def SBRep (b : StringBuf) (ss : List (List Nat)) : Prop :=
  b.offsets = offsetsOf ss ∧ b.data.contents = ss.flatten ∧
  ∀ i, i < ss.length →
    inOneSeg b.data.segsOf (prefLen ss i) (prefLen ss (i + 1))

theorem SBRep_copy (b : StringBuf) (ss : List (List Nat)) (t : List Nat)
    (h : SBRep b ss) : SBRep (b.copy t) (ss ++ [t]) := by
  obtain ⟨ho, hc, hseg⟩ := h
  have hlen : b.data.len = segSum ss := by
    rw [Region.len_eq_contents, hc, segSum_eq_flatten_length]
  refine ⟨?_, ?_, ?_⟩
  · show b.offsets ++ [(b.data.copySlice t).len] = offsetsOf (ss ++ [t])
    rw [offsetsOf_snoc, ho]
    congr 2
    rw [Region.len_eq_contents, Region.contents_copySlice, hc,
      List.length_append, segSum_eq_flatten_length]
  · show (b.data.copySlice t).contents = (ss ++ [t]).flatten
    rw [Region.contents_copySlice, hc, List.flatten_append]
    simp
  · intro i hi
    simp only [List.length_append, List.length_singleton] at hi
    by_cases hilt : i < ss.length
    · have h1 : prefLen (ss ++ [t]) i = prefLen ss i :=
        prefLen_append_of_le ss t i (by omega)
      have h2 : prefLen (ss ++ [t]) (i + 1) = prefLen ss (i + 1) :=
        prefLen_append_of_le ss t (i + 1) (by omega)
      rw [h1, h2]
      exact Region.inOneSeg_copySlice b.data t _ _ (hseg i hilt)
    · have hieq : i = ss.length := by omega
      subst hieq
      have h1 : prefLen (ss ++ [t]) ss.length = b.data.len := by
        rw [prefLen_append_of_le ss t ss.length (Nat.le_refl _),
          prefLen_length, hlen]
      have h2 : prefLen (ss ++ [t]) (ss.length + 1) = b.data.len + t.length := by
        rw [prefLen_length_snoc, hlen]
      rw [h1, h2]
      exact Region.inOneSeg_copySlice_new b.data t

theorem SBRep_withCapacity (cap : Nat) :
    SBRep (StringBuf.withCapacity cap) [] := by
  refine ⟨rfl, ?_, by simp⟩
  show (Region.withLimitAndCapacity (1000000 * 16) cap).contents = []
  rw [Region.withLimitAndCapacity, Region.contents_reserve]
  rfl

theorem SBRep_clear (b : StringBuf) : SBRep b.clear [] := by
  refine ⟨rfl, ?_, by simp⟩
  show (b.data.clear).contents = []
  simp [Region.clear, Region.contents]

theorem SBRep_sbuildFrom (b : StringBuf) (ss ts : List (List Nat))
    (h : SBRep b ss) : SBRep (sbuildFrom b ts) (ss ++ ts) := by
  induction ts generalizing b ss with
  | nil => simpa [sbuildFrom] using h
  | cons t ts ih =>
    have h2 := SBRep_copy b ss t h
    have h3 := ih (b.copy t) (ss ++ [t]) h2
    simpa [sbuildFrom, List.append_assoc] using h3

theorem SBRep_bounds (b : StringBuf) (ss : List (List Nat)) (h : SBRep b ss)
    (i : Nat) (hi : i < ss.length) :
    b.bounds i = some (prefLen ss i, prefLen ss (i + 1)) := by
  have hoff : ∀ k, k < ss.length → b.offsets[k]? = some (prefLen ss (k + 1)) := by
    intro k hk
    rw [h.1]
    exact offsetsOf_getElem ss k hk
  cases i with
  | zero =>
    simp [StringBuf.bounds, hoff 0 hi, prefLen_zero]
  | succ j =>
    have hj : j < ss.length := by omega
    simp [StringBuf.bounds, hoff (j + 1) hi, hoff j hj]

theorem flatten_extract (ss : List (List α)) (i : Nat) (hi : i < ss.length) :
    (ss.flatten.drop (prefLen ss i)).take ((ss.getD i []).length) =
      ss.getD i [] := by
  induction ss generalizing i with
  | nil => simp at hi
  | cons t rest ih =>
    cases i with
    | zero =>
      simp only [prefLen_zero, List.drop_zero, List.flatten_cons,
        List.getD_eq_getElem?_getD, List.getElem?_cons_zero, Option.getD_some]
      exact List.take_left t rest.flatten
    | succ j =>
      have hj : j < rest.length := by simpa using hi
      have hp : prefLen (t :: rest) (j + 1) = t.length + prefLen rest j := by
        simp [prefLen, List.take_succ_cons, segSum_cons]
      have hgd : (t :: rest).getD (j + 1) [] = rest.getD j [] := by
        simp [List.getD_eq_getElem?_getD]
      rw [List.flatten_cons, hp, hgd, List.drop_append]
      exact ih j hj

theorem SBRep_len (b : StringBuf) (ss : List (List Nat)) (h : SBRep b ss) :
    b.len = ss.length := by
  rw [StringBuf.len, h.1, offsetsOf_length]

theorem SBRep_idx (b : StringBuf) (ss : List (List Nat)) (h : SBRep b ss)
    (i : Nat) (hi : i < ss.length) :
    b.idx i = some (ss.getD i []) := by
  have hb := SBRep_bounds b ss h i hi
  obtain ⟨ho, hc, hseg⟩ := h
  simp only [StringBuf.idx, hb]
  rw [Region.slice_inOneSeg b.data _ _ (hseg i hi), hc]
  congr 1
  rw [prefLen_succ ss i hi, Nat.add_sub_cancel_left]
  exact flatten_extract ss i hi

theorem sbuild_SBRep (cap : Nat) (ss : List (List Nat)) :
    SBRep (sbuild cap ss) ss := by
  have h := SBRep_sbuildFrom (StringBuf.withCapacity cap) [] ss
    (SBRep_withCapacity cap)
  simpa [sbuild] using h

/-- C4: for a text buffer built by copying any sequence of strings, every
`[start, end)` range that `StringBuf::idx` passes to `Region::slice` lies
entirely within a single segment, and the unchecked slice succeeds in
bounds.  (`VecBuf`, the sequence buffer, never calls `Region::slice`: its
bookkeeping drives `idx` through an iterator, so the claim is vacuous for
it and the text buffer is the arena's only slicing caller.) -/
theorem c4_slice_ranges_single_segment (cap : Nat) (ss : List (List Nat))
    (i : Nat) (hi : i < (sbuild cap ss).len) :
    ∃ s e, (sbuild cap ss).bounds i = some (s, e) ∧ s ≤ e ∧
      inOneSeg (sbuild cap ss).data.segsOf s e ∧
      ∃ bytes, (sbuild cap ss).data.slice s e = some bytes := by
  have h := sbuild_SBRep cap ss
  rw [SBRep_len _ _ h] at hi
  refine ⟨prefLen ss i, prefLen ss (i + 1), SBRep_bounds _ _ h i hi, ?_,
    h.2.2 i hi, ?_⟩
  · rw [prefLen_succ ss i hi]
    omega
  · exact ⟨_, Region.slice_inOneSeg _ _ _ (h.2.2 i hi)⟩

/-- C4 witness: two strings with capacity hint 1; the range for index 1 is
in bounds, inside one segment, and the slice succeeds. -/
theorem c4_witness :
    1 < (sbuild 1 [[97, 98, 99], [120, 120]]).len ∧
    (∃ s e, (sbuild 1 [[97, 98, 99], [120, 120]]).bounds 1 = some (s, e) ∧
      s ≤ e ∧ inOneSeg (sbuild 1 [[97, 98, 99], [120, 120]]).data.segsOf s e ∧
      ∃ bytes,
        (sbuild 1 [[97, 98, 99], [120, 120]]).data.slice s e = some bytes) :=
  ⟨by decide,
    c4_slice_ranges_single_segment 1 [[97, 98, 99], [120, 120]] 1 (by decide)⟩

/-- C5: for every sequence of strings copied in order into a text buffer
with any capacity hint, `len()` equals the number of strings and `idx i`
returns the i-th string's bytes. -/
theorem c5_stringbuf_roundtrip (cap : Nat) (ss : List (List Nat)) :
    (sbuild cap ss).len = ss.length ∧
    ∀ i, i < ss.length → (sbuild cap ss).idx i = some (ss.getD i []) := by
  have h := sbuild_SBRep cap ss
  exact ⟨SBRep_len _ _ h, fun i hi => SBRep_idx _ _ h i hi⟩

/-- C5 witness: the spec's concrete scenario, capacity hint 1, copying the
byte strings of "abc", "xx", "xx2". -/
theorem c5_witness :
    (sbuild 1 [[97, 98, 99], [120, 120], [120, 120, 50]]).len = 3 ∧
    (sbuild 1 [[97, 98, 99], [120, 120], [120, 120, 50]]).idx 0 =
      some [97, 98, 99] ∧
    (sbuild 1 [[97, 98, 99], [120, 120], [120, 120, 50]]).idx 1 =
      some [120, 120] ∧
    (sbuild 1 [[97, 98, 99], [120, 120], [120, 120, 50]]).idx 2 =
      some [120, 120, 50] := by
  have h := c5_stringbuf_roundtrip 1 [[97, 98, 99], [120, 120], [120, 120, 50]]
  refine ⟨by simpa using h.1, ?_, ?_, ?_⟩
  · exact (h.2 0 (by decide)).trans (by decide)
  · exact (h.2 1 (by decide)).trans (by decide)
  · exact (h.2 2 (by decide)).trans (by decide)


/-- Model of the `Borrow` trait (src/borrow.rs lines 1-4): each owned type
has a borrowed-view type and a pure conversion to it. -/
class Borrow (C : Type) where
  Borrowed : Type
  borrow : C → Borrowed

/-- Model of the `ColumnarBuf<C>` trait (src/lib.rs lines 11-19),
implemented by a buffer type `B`: ingest borrowed views of `C`, serve
indexed read views.  A read that would panic in Rust returns `none`. -/
class ColumnarBuf (C : Type) [Borrow C] (B : Type) where
  ReadItem : Type
  copy : B → Borrow.Borrowed C → B
  idx : B → Nat → Option ReadItem
  len : B → Nat
  withCapacity : Nat → B

/-- Model of the `Columnar` trait (src/lib.rs lines 7-9): associates a
columnar type with its buffer type. -/
class Columnar (C : Type) [Borrow C] where
  Buf : Type
  [bufInst : ColumnarBuf C Buf]

attribute [instance] Columnar.bufInst

/-- The read-view type served by the associated buffer of `C`. -/
abbrev ReadItemOf (C : Type) [Borrow C] [i : Columnar C] : Type :=
  ColumnarBuf.ReadItem C i.Buf

/-- Model of `impl Borrow for u64` (src/borrow.rs lines 6-11): a `u64`
borrows as itself. -/
instance : Borrow Nat :=
  ⟨Nat, fun c => c⟩

/-- Model of `impl ColumnarBuf<u64> for Region<u64>` (src/lib.rs lines
25-43): copy appends, idx dereferences, `with_capacity` uses the fixed
limit `1_000_000`. -/
instance : ColumnarBuf Nat (Region Nat) where
  ReadItem := Nat
  copy r c := r.copy c
  idx r i := r.idx i
  len r := r.len
  withCapacity s := Region.withLimitAndCapacity 1000000 s

/-- Model of `impl Columnar for u64` (src/lib.rs lines 21-23). -/
instance : Columnar Nat :=
  ⟨Region Nat⟩

/-- Model of `impl<T> Borrow for Vec<T>` (src/borrow.rs lines 21-27): a
vector borrows as a slice of its elements. -/
instance (C : Type) : Borrow (List C) :=
  ⟨List C, fun c => c⟩

/-- Model of `VecBuf<T>` (src/lib.rs lines 87-90); the Rust field `idx` is
renamed `offsets` so that the `idx` method keeps its source name. -/
structure VecBuf (C : Type) [Borrow C] [Columnar C] where
  offsets : List Nat
  buf : Columnar.Buf C

/-- Model of `IdxIter<'a, T>` (src/lib.rs lines 128-136); the Rust field
`end` is renamed `endI` (`end` is a Lean keyword), and the borrowed nested
buffer is held by value. -/
structure IdxIter (C : Type) [Borrow C] [Columnar C] where
  endI : Nat
  current : Nat
  buf : Columnar.Buf C

/-- Model of `VecBuf::copy` (src/lib.rs lines 99-105): recursively copy
each element's borrowed view into the nested buffer, then record the
nested buffer's new length. -/
def VecBuf.copy {C : Type} [Borrow C] [Columnar C] (b : VecBuf C)
    (c : List C) : VecBuf C :=
  let buf := c.foldl
    (fun acc e => ColumnarBuf.copy (C := C) acc (Borrow.borrow e)) b.buf
  { offsets := b.offsets ++ [ColumnarBuf.len (C := C) buf], buf := buf }

/-- Model of `VecBuf::idx` (src/lib.rs lines 107-115); the panicking
offset reads become `none`. -/
def VecBuf.idx {C : Type} [Borrow C] [Columnar C] (b : VecBuf C) (i : Nat) :
    Option (IdxIter C) :=
  match b.offsets[i]? with
  | none => none
  | some e =>
    match i with
    | 0 => some { endI := e, current := 0, buf := b.buf }
    | j + 1 =>
      match b.offsets[j]? with
      | none => none
      | some s => some { endI := e, current := s, buf := b.buf }

/-- Model of `VecBuf::len` (src/lib.rs lines 117-119). -/
def VecBuf.len {C : Type} [Borrow C] [Columnar C] (b : VecBuf C) : Nat :=
  b.offsets.length

/-- Model of `VecBuf::with_capacity` (src/lib.rs lines 121-125): the
nested buffer is pre-sized with the fixed fan-out heuristic `s * 8`. -/
def VecBuf.withCapacity (C : Type) [Borrow C] [Columnar C] (s : Nat) :
    VecBuf C :=
  { offsets := [],
    buf := ColumnarBuf.withCapacity (C := C) (B := Columnar.Buf C) (s * 8) }

/-- Model of `impl<T: Columnar> ColumnarBuf<Vec<T>> for VecBuf<T>`
(src/lib.rs lines 96-126). -/
instance (C : Type) [Borrow C] [Columnar C] : ColumnarBuf (List C) (VecBuf C) where
  ReadItem := IdxIter C
  copy := VecBuf.copy
  idx := VecBuf.idx
  len := VecBuf.len
  withCapacity := VecBuf.withCapacity C

/-- Model of `impl<T: Columnar> Columnar for Vec<T>` (src/lib.rs lines
92-94). -/
instance (C : Type) [Borrow C] [Columnar C] : Columnar (List C) :=
  ⟨VecBuf C⟩

/-- Model of `Iterator::next` for `IdxIter` (src/lib.rs lines 145-153):
`none` when `current == end`, otherwise the read view at `current` (itself
`none` when that read would panic) together with the advanced iterator. -/
def IdxIter.next {C : Type} [Borrow C] [Columnar C] (i : IdxIter C) :
    Option (Option (ReadItemOf C) × IdxIter C) :=
  if i.current = i.endI then none
  else some (ColumnarBuf.idx (C := C) i.buf i.current,
    { i with current := i.current + 1 })

/-- Drive `next` with explicit fuel, collecting every yielded read view in
order: `none` when a read panics or the fuel runs out before exhaustion. -/
def IdxIter.drainFuel {C : Type} [Borrow C] [Columnar C] :
    Nat → IdxIter C → Option (List (ReadItemOf C))
  | 0, i =>
    match IdxIter.next i with
    | none => some []
    | some _ => none
  | f + 1, i =>
    match IdxIter.next i with
    | none => some []
    | some (v, j) =>
      match v with
      | none => none
      | some w =>
        match IdxIter.drainFuel f j with
        | none => none
        | some rest => some (w :: rest)

/-- All views an iterator yields until exhaustion (`endI - current` steps
always suffice for iterators the buffer hands out). -/
def IdxIter.drain {C : Type} [Borrow C] [Columnar C] (i : IdxIter C) :
    Option (List (ReadItemOf C)) :=
  IdxIter.drainFuel (i.endI - i.current) i

/-- A buffer for `C` built by `with_capacity cap` followed by copying the
borrowed views `bs` in order through the trait interface. -/
def buildFrom (C : Type) [Borrow C] [Columnar C] (cap : Nat)
    (bs : List (Borrow.Borrowed C)) : Columnar.Buf C :=
  bs.foldl (fun acc b => ColumnarBuf.copy (C := C) acc b)
    (ColumnarBuf.withCapacity (C := C) (B := Columnar.Buf C) cap)

/-- Semantic contract of a columnar type (the lawfulness the sequence
buffer needs of its nested buffer): a view/borrow matching relation under
which any buffer built by copying views in order has matching length and
reads. -/
class ColumnarSem (C : Type) [Borrow C] [Columnar C] where
  viewEq : ReadItemOf C → Borrow.Borrowed C → Prop
  len_build : ∀ (cap : Nat) (bs : List (Borrow.Borrowed C)),
    ColumnarBuf.len (C := C) (buildFrom C cap bs) = bs.length
  idx_build : ∀ (cap : Nat) (bs : List (Borrow.Borrowed C)) (i : Nat),
    i < bs.length →
    ∃ v w, ColumnarBuf.idx (C := C) (buildFrom C cap bs) i = some v ∧
      bs[i]? = some w ∧ viewEq v w

/-- The u64 instance satisfies the contract: a read view is the stored
value itself. -/
instance : ColumnarSem Nat where
  viewEq v b := v = b
  len_build cap bs := by
    show (regionBuild 1000000 cap bs).len = bs.length
    rw [Region.len_eq_contents, regionBuild_contents]
  idx_build cap bs i hi := by
    refine ⟨bs[i], bs[i], ?_, List.getElem?_eq_getElem hi, rfl⟩
    show (regionBuild 1000000 cap bs).idx i = some bs[i]
    rw [Region.idx_eq_contents, regionBuild_contents]
    exact List.getElem?_eq_getElem hi

/-- Copy a list of outer sequences in order into an existing sequence
buffer. -/
def vbuildFrom {C : Type} [Borrow C] [Columnar C] (b : VecBuf C)
    (bss : List (List C)) : VecBuf C :=
  bss.foldl VecBuf.copy b

/-- A sequence buffer built from scratch with capacity hint `cap`. -/
def vbuild (C : Type) [Borrow C] [Columnar C] (cap : Nat)
    (bss : List (List C)) : VecBuf C :=
  vbuildFrom (VecBuf.withCapacity C cap) bss

/-- The borrowed views of the stored outer sequences, elementwise. -/
def borrowsOf (C : Type) [Borrow C] (bss : List (List C)) :
    List (List (Borrow.Borrowed C)) :=
  bss.map (fun xs => xs.map Borrow.borrow)

/-- Representation invariant of a sequence buffer holding `bss`: offsets
are the cumulative element counts, and the nested buffer is exactly the
buffer built by copying every element's view in order. -/
def VBRep {C : Type} [Borrow C] [Columnar C] (cap0 : Nat) (b : VecBuf C)
    (bss : List (List C)) : Prop :=
  b.offsets = offsetsOf (borrowsOf C bss) ∧
  b.buf = buildFrom C cap0 (borrowsOf C bss).flatten

theorem buildFrom_append (C : Type) [Borrow C] [Columnar C] (cap : Nat)
    (a b : List (Borrow.Borrowed C)) :
    b.foldl (fun acc x => ColumnarBuf.copy (C := C) acc x)
        (buildFrom C cap a) =
      buildFrom C cap (a ++ b) := by
  rw [buildFrom, buildFrom, List.foldl_append]

theorem VBRep_copy {C : Type} [Borrow C] [Columnar C] [ColumnarSem C]
    (cap0 : Nat) (b : VecBuf C) (bss : List (List C)) (xs : List C)
    (h : VBRep cap0 b bss) : VBRep cap0 (b.copy xs) (bss ++ [xs]) := by
  obtain ⟨ho, hb⟩ := h
  have hbuf : (b.copy xs).buf =
      buildFrom C cap0
        ((borrowsOf C bss).flatten ++ xs.map Borrow.borrow) := by
    show xs.foldl
        (fun acc e => ColumnarBuf.copy (C := C) acc (Borrow.borrow e)) b.buf = _
    rw [hb, ← List.foldl_map, buildFrom_append]
  have hbor : borrowsOf C (bss ++ [xs]) =
      borrowsOf C bss ++ [xs.map Borrow.borrow] := by
    simp [borrowsOf]
  refine ⟨?_, ?_⟩
  · show b.offsets ++ [ColumnarBuf.len (C := C) ((b.copy xs).buf)] =
      offsetsOf (borrowsOf C (bss ++ [xs]))
    rw [hbuf, ColumnarSem.len_build, hbor, offsetsOf_snoc, ho]
    congr 2
    rw [List.length_append, segSum_eq_flatten_length]
  · rw [hbor, List.flatten_append]
    simpa using hbuf

theorem VBRep_withCapacity (C : Type) [Borrow C] [Columnar C] (cap : Nat) :
    VBRep (cap * 8) (VecBuf.withCapacity C cap) [] :=
  ⟨rfl, rfl⟩

theorem vbuildFrom_VBRep {C : Type} [Borrow C] [Columnar C] [ColumnarSem C]
    (cap0 : Nat) (b : VecBuf C) (bss ts : List (List C))
    (h : VBRep cap0 b bss) : VBRep cap0 (vbuildFrom b ts) (bss ++ ts) := by
  induction ts generalizing b bss with
  | nil => simpa [vbuildFrom] using h
  | cons t ts ih =>
    have h2 := VBRep_copy cap0 b bss t h
    have h3 := ih (b.copy t) (bss ++ [t]) h2
    simpa [vbuildFrom, List.append_assoc] using h3

theorem vbuild_VBRep (C : Type) [Borrow C] [Columnar C] [ColumnarSem C]
    (cap : Nat) (bss : List (List C)) :
    VBRep (cap * 8) (vbuild C cap bss) bss := by
  have h := vbuildFrom_VBRep (cap * 8) (VecBuf.withCapacity C cap) [] bss
    (VBRep_withCapacity C cap)
  simpa [vbuild] using h

theorem prefLen_le_segSum (ss : List (List α)) (i : Nat) :
    prefLen ss i ≤ segSum ss := by
  unfold prefLen
  conv_rhs => rw [← List.take_append_drop i ss]
  rw [segSum_append]
  omega

theorem drainFuel_spec (C : Type) [Borrow C] [Columnar C] [ColumnarSem C]
    (cap : Nat) (bs : List (Borrow.Borrowed C)) :
    ∀ (k s : Nat), s + k ≤ bs.length →
      ∃ vs, IdxIter.drainFuel k
          { endI := s + k, current := s, buf := buildFrom C cap bs } = some vs ∧
        List.Forall₂ (ColumnarSem.viewEq (C := C)) vs ((bs.drop s).take k) := by
  intro k
  induction k with
  | zero =>
    intro s h
    refine ⟨[], ?_, by simp⟩
    simp [IdxIter.drainFuel, IdxIter.next]
  | succ k ih =>
    intro s h
    have hs : s < bs.length := by omega
    obtain ⟨v, w, hv, hw, hvw⟩ := ColumnarSem.idx_build cap bs s hs
    obtain ⟨vs, hvs, hfa⟩ := ih (s + 1) (by omega)
    have hne : ¬ (s = s + (k + 1)) := by omega
    refine ⟨v :: vs, ?_, ?_⟩
    · have hnext : IdxIter.next
          { endI := s + (k + 1), current := s, buf := buildFrom C cap bs } =
          some (ColumnarBuf.idx (C := C) (buildFrom C cap bs) s,
            { endI := s + (k + 1), current := s + 1,
              buf := buildFrom C cap bs }) := by
        rw [IdxIter.next]
        simp [hne]
      have harith : s + (k + 1) = (s + 1) + k := by omega
      rw [IdxIter.drainFuel, hnext, hv, harith]
      simp [hvs]
    · rw [List.drop_eq_getElem_cons hs, List.take_succ_cons]
      have hwv : w = bs[s] := by
        rw [List.getElem?_eq_getElem hs] at hw
        exact (Option.some.inj hw).symm
      exact List.Forall₂.cons (hwv ▸ hvw) hfa

theorem vbuild_idx_spec (C : Type) [Borrow C] [Columnar C] [ColumnarSem C]
    (cap : Nat) (bss : List (List C)) (i : Nat) (hi : i < bss.length) :
    VecBuf.idx (vbuild C cap bss) i =
      some { endI := prefLen (borrowsOf C bss) (i + 1),
             current := prefLen (borrowsOf C bss) i,
             buf := buildFrom C (cap * 8) (borrowsOf C bss).flatten } := by
  obtain ⟨ho, hb⟩ := vbuild_VBRep C cap bss
  have hoff : ∀ k, k < bss.length → (vbuild C cap bss).offsets[k]? =
      some (prefLen (borrowsOf C bss) (k + 1)) := by
    intro k hk
    rw [ho]
    exact offsetsOf_getElem _ k (by simpa [borrowsOf] using hk)
  cases i with
  | zero =>
    simp [VecBuf.idx, hoff 0 hi, hb, prefLen_zero]
  | succ j =>
    have hj : j < bss.length := by omega
    simp [VecBuf.idx, hoff (j + 1) hi, hoff j hj, hb]

theorem vbuild_drain (C : Type) [Borrow C] [Columnar C] [ColumnarSem C]
    (cap : Nat) (bss : List (List C)) (i : Nat) (hi : i < bss.length) :
    ∃ it vs, VecBuf.idx (vbuild C cap bss) i = some it ∧
      IdxIter.drain it = some vs ∧
      List.Forall₂ (ColumnarSem.viewEq (C := C)) vs
        ((bss.getD i []).map Borrow.borrow) ∧
      (bss.getD i [] = [] → IdxIter.next it = none) := by
  have hidx := vbuild_idx_spec C cap bss i hi
  have hikey : i < (borrowsOf C bss).length := by simpa [borrowsOf] using hi
  have hsucc := prefLen_succ (borrowsOf C bss) i hikey
  have hdg : (borrowsOf C bss).getD i [] = (bss.getD i []).map Borrow.borrow := by
    simp [borrowsOf, List.getD_eq_getElem?_getD, List.getElem?_eq_getElem hi]
  have hbound : prefLen (borrowsOf C bss) i +
      ((borrowsOf C bss).getD i []).length ≤ (borrowsOf C bss).flatten.length := by
    rw [segSum_eq_flatten_length, ← hsucc]
    exact prefLen_le_segSum _ (i + 1)
  obtain ⟨vs, hvs, hfa⟩ := drainFuel_spec C (cap * 8) (borrowsOf C bss).flatten
    ((borrowsOf C bss).getD i []).length (prefLen (borrowsOf C bss) i) hbound
  refine ⟨_, vs, hidx, ?_, ?_, ?_⟩
  · rw [IdxIter.drain]
    show IdxIter.drainFuel
      (prefLen (borrowsOf C bss) (i + 1) - prefLen (borrowsOf C bss) i) _ = _
    rw [hsucc, Nat.add_sub_cancel_left]
    exact hvs
  · have hext := flatten_extract (borrowsOf C bss) i hikey
    rw [hext, hdg] at hfa
    exact hfa
  · intro hempty
    have hzero : ((borrowsOf C bss).getD i []).length = 0 := by
      rw [hdg, hempty]
      rfl
    rw [IdxIter.next]
    have : prefLen (borrowsOf C bss) i = prefLen (borrowsOf C bss) (i + 1) := by
      omega
    simp [this]

/-- The sequence-buffer instance satisfies the contract whenever its
element type does: a read view is an iterator draining to views that match
the stored elements in order. -/
instance (C : Type) [Borrow C] [Columnar C] [ColumnarSem C] :
    ColumnarSem (List C) where
  viewEq it xs := ∃ vs, IdxIter.drain it = some vs ∧
    List.Forall₂ (ColumnarSem.viewEq (C := C)) vs (xs.map Borrow.borrow)
  len_build cap bss := by
    show VecBuf.len (vbuild C cap bss) = bss.length
    obtain ⟨ho, hb⟩ := vbuild_VBRep C cap bss
    rw [VecBuf.len, ho, offsetsOf_length]
    simp [borrowsOf]
  idx_build cap bss i hi := by
    obtain ⟨it, vs, hit, hvs, hfa, hempty⟩ := vbuild_drain C cap bss i hi
    refine ⟨it, bss[i], ?_, List.getElem?_eq_getElem hi, ?_⟩
    · show VecBuf.idx (vbuild C cap bss) i = some it
      exact hit
    · refine ⟨vs, hvs, ?_⟩
      have hg : bss.getD i [] = bss[i] := by
        simp [List.getD_eq_getElem?_getD, List.getElem?_eq_getElem hi]
      rwa [hg] at hfa

/-- C6: for every sequence of slices copied in order into a sequence
buffer over any lawful element type (including nested
sequence-of-sequence element types, via the `List` instance of the
contract), `idx i` returns an iterator that yields exactly the elements of
the i-th copied slice in insertion order — each yielded view matches the
corresponding stored element — and for an empty copied slice the iterator
is immediately exhausted (`next` is `none` at once). -/
theorem c6_vecbuf_iterator_roundtrip (C : Type) [Borrow C] [Columnar C]
    [ColumnarSem C] (cap : Nat) (bss : List (List C)) (i : Nat)
    (hi : i < bss.length) :
    ∃ it vs, VecBuf.idx (vbuild C cap bss) i = some it ∧
      IdxIter.drain it = some vs ∧
      List.Forall₂ (ColumnarSem.viewEq (C := C)) vs
        ((bss.getD i []).map Borrow.borrow) ∧
      (bss.getD i [] = [] → IdxIter.next it = none) :=
  vbuild_drain C cap bss i hi

/-- C6 witness: the spec's scenario `[1,2]`, `[3]`, `[]` at scalar element
type (indices 2 and 0), plus a nested sequence-of-sequence instantiation. -/
theorem c6_witness :
    (2 < ([[1, 2], [3], []] : List (List Nat)).length ∧
      ∃ it vs, VecBuf.idx (vbuild Nat 1 [[1, 2], [3], []]) 2 = some it ∧
        IdxIter.drain it = some vs ∧
        List.Forall₂ (ColumnarSem.viewEq (C := Nat)) vs
          ((([[1, 2], [3], []] : List (List Nat)).getD 2 []).map Borrow.borrow) ∧
        (([[1, 2], [3], []] : List (List Nat)).getD 2 [] = [] →
          IdxIter.next it = none)) ∧
    (0 < ([[1, 2], [3], []] : List (List Nat)).length ∧
      ∃ it vs, VecBuf.idx (vbuild Nat 1 [[1, 2], [3], []]) 0 = some it ∧
        IdxIter.drain it = some vs ∧
        List.Forall₂ (ColumnarSem.viewEq (C := Nat)) vs
          ((([[1, 2], [3], []] : List (List Nat)).getD 0 []).map Borrow.borrow) ∧
        (([[1, 2], [3], []] : List (List Nat)).getD 0 [] = [] →
          IdxIter.next it = none)) ∧
    (0 < ([[[1, 2], []], [[3]]] : List (List (List Nat))).length ∧
      ∃ it vs, VecBuf.idx (vbuild (List Nat) 1 [[[1, 2], []], [[3]]]) 0 = some it ∧
        IdxIter.drain it = some vs ∧
        List.Forall₂ (ColumnarSem.viewEq (C := List Nat)) vs
          ((([[[1, 2], []], [[3]]] : List (List (List Nat))).getD 0 []).map
            Borrow.borrow) ∧
        (([[[1, 2], []], [[3]]] : List (List (List Nat))).getD 0 [] = [] →
          IdxIter.next it = none)) :=
  ⟨⟨by decide, c6_vecbuf_iterator_roundtrip Nat 1 [[1, 2], [3], []] 2 (by decide)⟩,
   ⟨by decide, c6_vecbuf_iterator_roundtrip Nat 1 [[1, 2], [3], []] 0 (by decide)⟩,
   ⟨by decide,
     c6_vecbuf_iterator_roundtrip (List Nat) 1 [[[1, 2], []], [[3]]] 0 (by decide)⟩⟩

theorem offsetsOf_mono (ss : List (List α)) (j : Nat)
    (h : j + 1 < (offsetsOf ss).length) :
    (offsetsOf ss).getD j 0 ≤ (offsetsOf ss).getD (j + 1) 0 := by
  rw [offsetsOf_length] at h
  have h1 := offsetsOf_getElem ss j (by omega)
  have h2 := offsetsOf_getElem ss (j + 1) h
  simp only [List.getD_eq_getElem?_getD, h1, h2, Option.getD_some]
  rw [prefLen_succ ss (j + 1) h]
  omega

/-- C7: for both the text buffer and the sequence buffer, after any
sequence of copy calls the internal offsets vector is non-decreasing and
its length equals `len()`. -/
theorem c7_offsets_monotone_and_len :
    (∀ (cap : Nat) (ss : List (List Nat)),
      (sbuild cap ss).offsets.length = (sbuild cap ss).len ∧
      ∀ j, j + 1 < (sbuild cap ss).offsets.length →
        (sbuild cap ss).offsets.getD j 0 ≤
          (sbuild cap ss).offsets.getD (j + 1) 0) ∧
    (∀ (C : Type) [Borrow C] [Columnar C] [ColumnarSem C] (cap : Nat)
        (bss : List (List C)),
      (vbuild C cap bss).offsets.length = VecBuf.len (vbuild C cap bss) ∧
      ∀ j, j + 1 < (vbuild C cap bss).offsets.length →
        (vbuild C cap bss).offsets.getD j 0 ≤
          (vbuild C cap bss).offsets.getD (j + 1) 0) := by
  constructor
  · intro cap ss
    have h := sbuild_SBRep cap ss
    refine ⟨rfl, ?_⟩
    intro j hj
    rw [h.1] at hj ⊢
    exact offsetsOf_mono _ j hj
  · intro C _ _ _ cap bss
    obtain ⟨ho, hb⟩ := vbuild_VBRep C cap bss
    refine ⟨rfl, ?_⟩
    intro j hj
    rw [ho] at hj ⊢
    exact offsetsOf_mono _ j hj

/-- C7 witness: concrete text and sequence buffers, checking the length
accounting and the first adjacent offset pair of each. -/
theorem c7_witness :
    ((sbuild 1 [[97], [98, 99]]).offsets.length = (sbuild 1 [[97], [98, 99]]).len) ∧
    (0 + 1 < (sbuild 1 [[97], [98, 99]]).offsets.length ∧
      (sbuild 1 [[97], [98, 99]]).offsets.getD 0 0 ≤
        (sbuild 1 [[97], [98, 99]]).offsets.getD 1 0) ∧
    ((vbuild Nat 1 [[1, 2], [3]]).offsets.length =
      VecBuf.len (vbuild Nat 1 [[1, 2], [3]])) ∧
    (0 + 1 < (vbuild Nat 1 [[1, 2], [3]]).offsets.length ∧
      (vbuild Nat 1 [[1, 2], [3]]).offsets.getD 0 0 ≤
        (vbuild Nat 1 [[1, 2], [3]]).offsets.getD 1 0) :=
  ⟨(c7_offsets_monotone_and_len.1 1 [[97], [98, 99]]).1,
   ⟨by decide, (c7_offsets_monotone_and_len.1 1 [[97], [98, 99]]).2 0 (by decide)⟩,
   (c7_offsets_monotone_and_len.2 Nat 1 [[1, 2], [3]]).1,
   ⟨by decide, (c7_offsets_monotone_and_len.2 Nat 1 [[1, 2], [3]]).2 0 (by decide)⟩⟩

/-- A buffer for `C` obtained from an arbitrary starting buffer state by
copying the borrowed views `bs` in order through the trait interface. -/
def buildFromState (C : Type) [Borrow C] [Columnar C] (b : Columnar.Buf C)
    (bs : List (Borrow.Borrowed C)) : Columnar.Buf C :=
  bs.foldl (fun acc x => ColumnarBuf.copy (C := C) acc x) b

theorem buildFromState_append (C : Type) [Borrow C] [Columnar C]
    (b : Columnar.Buf C) (a c : List (Borrow.Borrowed C)) :
    c.foldl (fun acc x => ColumnarBuf.copy (C := C) acc x)
        (buildFromState C b a) =
      buildFromState C b (a ++ c) := by
  rw [buildFromState, buildFromState, List.foldl_append]

theorem drainFuel_spec_of (C : Type) [Borrow C] [Columnar C] [ColumnarSem C]
    (B : Columnar.Buf C) (bs : List (Borrow.Borrowed C))
    (hidx : ∀ j, j < bs.length →
      ∃ v w, ColumnarBuf.idx (C := C) B j = some v ∧ bs[j]? = some w ∧
        ColumnarSem.viewEq (C := C) v w) :
    ∀ (k s : Nat), s + k ≤ bs.length →
      ∃ vs, IdxIter.drainFuel k
          { endI := s + k, current := s, buf := B } = some vs ∧
        List.Forall₂ (ColumnarSem.viewEq (C := C)) vs ((bs.drop s).take k) := by
  intro k
  induction k with
  | zero =>
    intro s h
    refine ⟨[], ?_, by simp⟩
    simp [IdxIter.drainFuel, IdxIter.next]
  | succ k ih =>
    intro s h
    have hs : s < bs.length := by omega
    obtain ⟨v, w, hv, hw, hvw⟩ := hidx s hs
    obtain ⟨vs, hvs, hfa⟩ := ih (s + 1) (by omega)
    have hne : ¬ (s = s + (k + 1)) := by omega
    refine ⟨v :: vs, ?_, ?_⟩
    · have hnext : IdxIter.next
          { endI := s + (k + 1), current := s, buf := B } =
          some (ColumnarBuf.idx (C := C) B s,
            { endI := s + (k + 1), current := s + 1, buf := B }) := by
        rw [IdxIter.next]
        simp [hne]
      have harith : s + (k + 1) = (s + 1) + k := by omega
      rw [IdxIter.drainFuel, hnext, hv, harith]
      simp [hvs]
    · rw [List.drop_eq_getElem_cons hs, List.take_succ_cons]
      have hwv : w = bs[s] := by
        rw [List.getElem?_eq_getElem hs] at hw
        exact (Option.some.inj hw).symm
      exact List.Forall₂.cons (hwv ▸ hvw) hfa

/-- Modelled from the spec: the `clear()` operation of the buffer
associated with `C`.  The `ColumnarBuf` trait in src/lib.rs has no `clear`
method and only `Region::clear` exists in src/region.rs, while spec
sections 4.5 and 8 require every buffer to support `clear()`. -/
class ColumnarClear (C : Type) [Borrow C] [Columnar C] where
  clear : Columnar.Buf C → Columnar.Buf C

/-- The u64 buffer clears through the real `Region::clear` (src/region.rs
lines 66-69). -/
instance : ColumnarClear Nat :=
  ⟨Region.clear⟩

/-- Modelled from the spec: `clear()` for the sequence buffer, absent from
src/lib.rs; per the spec's clear contract it returns the buffer to an
empty build phase, emptying the offsets and recursively clearing the
nested buffer. -/
def VecBuf.clear {C : Type} [Borrow C] [Columnar C] [ColumnarClear C]
    (b : VecBuf C) : VecBuf C :=
  { offsets := [], buf := ColumnarClear.clear (C := C) b.buf }

instance (C : Type) [Borrow C] [Columnar C] [ColumnarClear C] :
    ColumnarClear (List C) :=
  ⟨VecBuf.clear⟩

/-- Modelled from the spec: the clear contract of spec sections 4.5 and 8:
after `clear()` the buffer is empty, and buffers rebuilt from a cleared
state have the same length accounting and reads as freshly constructed
ones. -/
class ColumnarClearSem (C : Type) [Borrow C] [Columnar C] [ColumnarSem C]
    [ColumnarClear C] where
  len_clear : ∀ b : Columnar.Buf C,
    ColumnarBuf.len (C := C) (ColumnarClear.clear (C := C) b) = 0
  len_build_clear : ∀ (b : Columnar.Buf C) (bs : List (Borrow.Borrowed C)),
    ColumnarBuf.len (C := C)
      (buildFromState C (ColumnarClear.clear (C := C) b) bs) = bs.length
  idx_build_clear : ∀ (b : Columnar.Buf C) (bs : List (Borrow.Borrowed C))
      (i : Nat), i < bs.length →
    ∃ v w, ColumnarBuf.idx (C := C)
        (buildFromState C (ColumnarClear.clear (C := C) b) bs) i = some v ∧
      bs[i]? = some w ∧ ColumnarSem.viewEq (C := C) v w

/-- The u64 buffer satisfies the clear contract through `Region::clear`. -/
instance : ColumnarClearSem Nat where
  len_clear b := by
    show (Region.clear b).len = 0
    rw [Region.len_eq_contents]
    simp [Region.clear, Region.contents]
  len_build_clear b bs := by
    show (regionBuildFrom (Region.clear b) bs).len = bs.length
    rw [Region.len_eq_contents, regionBuildFrom_contents]
    simp [Region.clear, Region.contents]
  idx_build_clear b bs i hi := by
    refine ⟨bs[i], bs[i], ?_, ?_, rfl⟩
    · show (regionBuildFrom (Region.clear b) bs).idx i = some bs[i]
      rw [Region.idx_eq_contents, regionBuildFrom_contents]
      have hc : (Region.clear b).contents = [] := by
        simp [Region.clear, Region.contents]
      rw [hc, List.nil_append]
      exact List.getElem?_eq_getElem hi
    · exact List.getElem?_eq_getElem hi

/-- Representation of a sequence buffer relative to a fixed starting state
of its nested buffer. -/
def VBRepS {C : Type} [Borrow C] [Columnar C] (s : Columnar.Buf C)
    (b : VecBuf C) (bss : List (List C)) : Prop :=
  b.offsets = offsetsOf (borrowsOf C bss) ∧
  b.buf = buildFromState C s (borrowsOf C bss).flatten

theorem VBRepS_copy {C : Type} [Borrow C] [Columnar C] (s : Columnar.Buf C)
    (hlen : ∀ l : List (Borrow.Borrowed C),
      ColumnarBuf.len (C := C) (buildFromState C s l) = l.length)
    (b : VecBuf C) (bss : List (List C)) (xs : List C)
    (h : VBRepS s b bss) : VBRepS s (b.copy xs) (bss ++ [xs]) := by
  obtain ⟨ho, hb⟩ := h
  have hbuf : (b.copy xs).buf =
      buildFromState C s
        ((borrowsOf C bss).flatten ++ xs.map Borrow.borrow) := by
    show xs.foldl
        (fun acc e => ColumnarBuf.copy (C := C) acc (Borrow.borrow e)) b.buf = _
    rw [hb, ← List.foldl_map, buildFromState_append]
  have hbor : borrowsOf C (bss ++ [xs]) =
      borrowsOf C bss ++ [xs.map Borrow.borrow] := by
    simp [borrowsOf]
  refine ⟨?_, ?_⟩
  · show b.offsets ++ [ColumnarBuf.len (C := C) ((b.copy xs).buf)] =
      offsetsOf (borrowsOf C (bss ++ [xs]))
    rw [hbuf, hlen, hbor, offsetsOf_snoc, ho]
    congr 2
    rw [List.length_append, segSum_eq_flatten_length]
  · rw [hbor, List.flatten_append]
    simpa using hbuf

theorem vbuildFrom_VBRepS {C : Type} [Borrow C] [Columnar C]
    (s : Columnar.Buf C)
    (hlen : ∀ l : List (Borrow.Borrowed C),
      ColumnarBuf.len (C := C) (buildFromState C s l) = l.length)
    (b : VecBuf C) (bss ts : List (List C))
    (h : VBRepS s b bss) : VBRepS s (vbuildFrom b ts) (bss ++ ts) := by
  induction ts generalizing b bss with
  | nil => simpa [vbuildFrom] using h
  | cons t ts ih =>
    have h2 := VBRepS_copy s hlen b bss t h
    have h3 := ih (b.copy t) (bss ++ [t]) h2
    simpa [vbuildFrom, List.append_assoc] using h3

theorem vclear_VBRepS {C : Type} [Borrow C] [Columnar C] [ColumnarSem C]
    [ColumnarClear C] [ColumnarClearSem C] (b : VecBuf C)
    (bss : List (List C)) :
    VBRepS (ColumnarClear.clear (C := C) b.buf)
      (vbuildFrom (VecBuf.clear b) bss) bss := by
  have hbase : VBRepS (ColumnarClear.clear (C := C) b.buf) (VecBuf.clear b) [] :=
    ⟨rfl, rfl⟩
  have h := vbuildFrom_VBRepS (ColumnarClear.clear (C := C) b.buf)
    (fun l => ColumnarClearSem.len_build_clear b.buf l)
    (VecBuf.clear b) [] bss hbase
  simpa using h

theorem vclear_idx_spec {C : Type} [Borrow C] [Columnar C] [ColumnarSem C]
    [ColumnarClear C] [ColumnarClearSem C] (b : VecBuf C)
    (bss : List (List C)) (i : Nat) (hi : i < bss.length) :
    VecBuf.idx (vbuildFrom (VecBuf.clear b) bss) i =
      some { endI := prefLen (borrowsOf C bss) (i + 1),
             current := prefLen (borrowsOf C bss) i,
             buf := buildFromState C (ColumnarClear.clear (C := C) b.buf)
               (borrowsOf C bss).flatten } := by
  obtain ⟨ho, hb⟩ := vclear_VBRepS b bss
  have hoff : ∀ k, k < bss.length →
      (vbuildFrom (VecBuf.clear b) bss).offsets[k]? =
        some (prefLen (borrowsOf C bss) (k + 1)) := by
    intro k hk
    rw [ho]
    exact offsetsOf_getElem _ k (by simpa [borrowsOf] using hk)
  cases i with
  | zero =>
    simp [VecBuf.idx, hoff 0 hi, hb, prefLen_zero]
  | succ j =>
    have hj : j < bss.length := by omega
    simp [VecBuf.idx, hoff (j + 1) hi, hoff j hj, hb]

theorem vclear_drain {C : Type} [Borrow C] [Columnar C] [ColumnarSem C]
    [ColumnarClear C] [ColumnarClearSem C] (b : VecBuf C)
    (bss : List (List C)) (i : Nat) (hi : i < bss.length) :
    ∃ it vs, VecBuf.idx (vbuildFrom (VecBuf.clear b) bss) i = some it ∧
      IdxIter.drain it = some vs ∧
      List.Forall₂ (ColumnarSem.viewEq (C := C)) vs
        ((bss.getD i []).map Borrow.borrow) ∧
      (bss.getD i [] = [] → IdxIter.next it = none) := by
  have hidx := vclear_idx_spec b bss i hi
  have hikey : i < (borrowsOf C bss).length := by simpa [borrowsOf] using hi
  have hsucc := prefLen_succ (borrowsOf C bss) i hikey
  have hdg : (borrowsOf C bss).getD i [] = (bss.getD i []).map Borrow.borrow := by
    simp [borrowsOf, List.getD_eq_getElem?_getD, List.getElem?_eq_getElem hi]
  have hbound : prefLen (borrowsOf C bss) i +
      ((borrowsOf C bss).getD i []).length ≤
        (borrowsOf C bss).flatten.length := by
    rw [segSum_eq_flatten_length, ← hsucc]
    exact prefLen_le_segSum _ (i + 1)
  obtain ⟨vs, hvs, hfa⟩ := drainFuel_spec_of C
    (buildFromState C (ColumnarClear.clear (C := C) b.buf)
      (borrowsOf C bss).flatten)
    (borrowsOf C bss).flatten
    (fun j hj =>
      ColumnarClearSem.idx_build_clear b.buf (borrowsOf C bss).flatten j hj)
    ((borrowsOf C bss).getD i []).length (prefLen (borrowsOf C bss) i) hbound
  refine ⟨_, vs, hidx, ?_, ?_, ?_⟩
  · rw [IdxIter.drain]
    show IdxIter.drainFuel
      (prefLen (borrowsOf C bss) (i + 1) - prefLen (borrowsOf C bss) i) _ = _
    rw [hsucc, Nat.add_sub_cancel_left]
    exact hvs
  · have hext := flatten_extract (borrowsOf C bss) i hikey
    rw [hext, hdg] at hfa
    exact hfa
  · intro hempty
    have hzero : ((borrowsOf C bss).getD i []).length = 0 := by
      rw [hdg, hempty]
      rfl
    rw [IdxIter.next]
    have h0 : prefLen (borrowsOf C bss) i = prefLen (borrowsOf C bss) (i + 1) := by
      omega
    simp [h0]

/-- Modelled from the spec: the sequence buffer satisfies the clear
contract whenever its element type does, so nested sequence buffers are
covered by recursion. -/
instance (C : Type) [Borrow C] [Columnar C] [ColumnarSem C] [ColumnarClear C]
    [ColumnarClearSem C] : ColumnarClearSem (List C) where
  len_clear b := rfl
  len_build_clear b bss := by
    show VecBuf.len (vbuildFrom (VecBuf.clear b) bss) = bss.length
    obtain ⟨ho, hb⟩ := vclear_VBRepS b bss
    rw [VecBuf.len, ho, offsetsOf_length]
    simp [borrowsOf]
  idx_build_clear b bss i hi := by
    obtain ⟨it, vs, hit, hvs, hfa, hempty⟩ := vclear_drain b bss i hi
    refine ⟨it, bss[i], ?_, List.getElem?_eq_getElem hi, ?_⟩
    · show VecBuf.idx (vbuildFrom (VecBuf.clear b) bss) i = some it
      exact hit
    · refine ⟨vs, hvs, ?_⟩
      have hg : bss.getD i [] = bss[i] := by
        simp [List.getD_eq_getElem?_getD, List.getElem?_eq_getElem hi]
      rwa [hg] at hfa

/-- C9: every buffer supports `clear()`: afterwards `len() = 0` and
subsequent copies and reads behave exactly as on a freshly constructed
buffer.  This covers the arena itself (the real `Region::clear`), the text
buffer (clear modelled from the spec, since src/lib.rs gives `StringBuf`
no clear method), and the sequence buffer at every lawful element type —
nested sequence buffers included, via the `List` instances of the clear
contract (clear modelled from the spec likewise); in particular the text
scenario: copy three values, clear, copy "z", observe `len() = 1` and
`idx 0 = "z"`. -/
theorem c9_clear_resets (b : StringBuf) (ss : List (List Nat)) :
    b.clear.len = 0 ∧
    (sbuildFrom b.clear ss).len = ss.length ∧
    (∀ i, i < ss.length → (sbuildFrom b.clear ss).idx i = some (ss.getD i [])) ∧
    (∀ (β : Type) (r : Region β) (vs : List β),
      r.clear.len = 0 ∧
      (regionBuildFrom r.clear vs).len = vs.length ∧
      ∀ i (hi : i < vs.length),
        (regionBuildFrom r.clear vs).idx i = some vs[i]) ∧
    ∀ (C : Type) [Borrow C] [Columnar C] [ColumnarSem C] [ColumnarClear C]
        [ColumnarClearSem C] (vb : VecBuf C) (bss : List (List C)),
      VecBuf.len (VecBuf.clear vb) = 0 ∧
      VecBuf.len (vbuildFrom (VecBuf.clear vb) bss) = bss.length ∧
      ∀ i, i < bss.length →
        ∃ it vs2, VecBuf.idx (vbuildFrom (VecBuf.clear vb) bss) i = some it ∧
          IdxIter.drain it = some vs2 ∧
          List.Forall₂ (ColumnarSem.viewEq (C := C)) vs2
            ((bss.getD i []).map Borrow.borrow) := by
  have hrep : SBRep (sbuildFrom b.clear ss) ([] ++ ss) :=
    SBRep_sbuildFrom b.clear [] ss (SBRep_clear b)
  rw [List.nil_append] at hrep
  refine ⟨rfl, SBRep_len _ _ hrep, fun i hi => SBRep_idx _ _ hrep i hi, ?_, ?_⟩
  · intro β r vs
    have hc : (Region.clear r).contents = [] := by
      simp [Region.clear, Region.contents]
    have hbuild : (regionBuildFrom r.clear vs).contents = vs := by
      rw [regionBuildFrom_contents, hc, List.nil_append]
    refine ⟨?_, ?_, ?_⟩
    · rw [Region.len_eq_contents, hc]
      rfl
    · rw [Region.len_eq_contents, hbuild]
    · intro i hi
      rw [Region.idx_eq_contents, hbuild]
      exact List.getElem?_eq_getElem hi
  · intro C _ _ _ _ _ vb bss
    refine ⟨rfl, ?_, ?_⟩
    · obtain ⟨ho, hb2⟩ := vclear_VBRepS vb bss
      rw [VecBuf.len, ho, offsetsOf_length]
      simp [borrowsOf]
    · intro i hi
      obtain ⟨it, vs2, hit, hvs, hfa, _⟩ := vclear_drain vb bss i hi
      exact ⟨it, vs2, hit, hvs, hfa⟩

/-- C9 witness: the spec's clear-and-reuse text scenario (three strings,
clear, copy byte 122 for "z"), plus a concrete sequence buffer cleared and
reused with slice `[1, 2]`. -/
theorem c9_witness :
    (sbuild 5 [[97], [98], [99]]).clear.len = 0 ∧
    (sbuildFrom (sbuild 5 [[97], [98], [99]]).clear [[122]]).len = 1 ∧
    (sbuildFrom (sbuild 5 [[97], [98], [99]]).clear [[122]]).idx 0 =
      some [122] ∧
    VecBuf.len (VecBuf.clear (vbuild Nat 2 [[7], [8, 9]])) = 0 ∧
    VecBuf.len (vbuildFrom (VecBuf.clear (vbuild Nat 2 [[7], [8, 9]]))
      [[1, 2]]) = 1 ∧
    ∃ it vs2, VecBuf.idx (vbuildFrom (VecBuf.clear (vbuild Nat 2 [[7], [8, 9]]))
        [[1, 2]]) 0 = some it ∧
      IdxIter.drain it = some vs2 ∧
      List.Forall₂ (ColumnarSem.viewEq (C := Nat)) vs2
        ((([[1, 2]] : List (List Nat)).getD 0 []).map Borrow.borrow) := by
  have h := c9_clear_resets (sbuild 5 [[97], [98], [99]]) [[122]]
  have hv := h.2.2.2.2 Nat (vbuild Nat 2 [[7], [8, 9]]) [[1, 2]]
  exact ⟨h.1, by simpa using h.2.1, (h.2.2.1 0 (by decide)).trans (by decide),
    hv.1, by simpa using hv.2.1, hv.2.2 0 (by decide)⟩
